import Mathlib

/-!
Verification of the `DoubleMLPQ` estimator (double machine learning for
potential quantiles, `doubleml/double_ml_pq.py`) against its natural-language
specification.  The per-observation numeric arrays of the program are embedded
as Lean lists: exact rationals (`ℚ`) for the score and trimming arithmetic,
reals (`ℝ`) for the kernel-density part of the score derivative (which uses
the transcendental functions `exp`, `sqrt` and `pi`).  Stateful fragments of
the estimator (the stored learners, the stored coefficient start value) are
embedded as explicit state-passing functions.
-/

/-! ## Score elements and the moment function (`_compute_score`) -/

/-- Bundle of score elements `{ind_d, g, m, y}` built by `_nuisance_est` and
consumed by `_compute_score`; one rational per observation in each field. -/
structure PsiElements where
  ind_d : List ℚ
  g : List ℚ
  m : List ℚ
  y : List ℚ

/-- Elementwise combination of four equal-length lists; models the numpy
vectorized arithmetic of `_compute_score` over the four element arrays. -/
def zipWith4 {α : Type} (f : α → α → α → α → α) : List α → List α → List α → List α → List α
  | a :: as, b :: bs, c :: cs, d :: ds => f a b c d :: zipWith4 f as bs cs ds
  | _, _, _, _ => []

/-- Numeric value of the numpy boolean `y <= coef` (`True` is `1`, `False` is
`0`) as it enters the arithmetic of `_compute_score`. -/
def indLE (y coef : ℚ) : ℚ := if y ≤ coef then 1 else 0

/-- Fancy-indexing `xs[inds]` of a numpy array, with an explicit default for
out-of-range indices (the program only ever indexes in range). -/
def selectD {α : Type} (dflt : α) (xs : List α) (inds : List ℕ) : List α :=
  inds.map (fun i => xs.getD i dflt)

/-- Row restriction of a whole score-element bundle, as performed by the
`inds is not None` branch of `_compute_score` / `_compute_score_deriv`. -/
def selectElements (e : PsiElements) (inds : List ℕ) : PsiElements :=
  ⟨selectD 0 e.ind_d inds, selectD 0 e.g inds, selectD 0 e.m inds, selectD 0 e.y inds⟩

/-- Embedding of `DoubleMLPQ._compute_score`: optionally restrict the element
arrays to `inds`, then evaluate
`ind_d * ((y <= coef) - g) / m + g - quantile` elementwise. -/
def compute_score (quantile : ℚ) (psi_elements : PsiElements) (coef : ℚ)
    (inds : Option (List ℕ)) : List ℚ :=
  let e := match inds with
    | Option.none => psi_elements
    | Option.some is => selectElements psi_elements is
  zipWith4 (fun i g m y => i * (indLE y coef - g) / m + g - quantile)
    e.ind_d e.g e.m e.y

/-! ## Trimming (`_trimm`) and the preliminary propensity of `_nuisance_est` -/

/-- Modelled from the spec: the trimming/clipping utility `_trimm` (imported
from `_utils`, whose source is not part of this excerpt) with the only
supported rule `'truncate'`; spec 4.2 says it returns its input clipped
elementwise to `[τ, 1−τ]`.  Clipping applies the lower bound first and then
the upper bound, as `np.clip` does. -/
def trimmEntry {α : Type} [LinearOrder α] [One α] [Sub α] (τ p : α) : α :=
  min (1 - τ) (max τ p)

/-- Modelled from the spec: elementwise trimming of a probability-like
array (spec 4.2). -/
def trimm {α : Type} [LinearOrder α] [One α] [Sub α] (τ : α) (ps : List α) : List α :=
  ps.map (trimmEntry τ)

/-- Embedding of `_nuisance_est` lines 287–289: the preliminary propensity
vector is first trimmed, and then inverted (`1 - p`) when the treatment of
interest is the baseline level `0`. -/
def m_hat_prelim_code (τ : ℚ) (treatment : ℤ) (preds : List ℚ) : List ℚ :=
  let t := trimm τ preds
  if treatment = 0 then t.map (fun p => 1 - p) else t

/-- Modelled from the spec: spec 4.4 steps 2–3 state the opposite order for
the baseline-treatment case — invert the raw predictions first (`1 - p`,
step 2) and trim afterwards (step 3). -/
def m_hat_prelim_spec (τ : ℚ) (preds : List ℚ) : List ℚ :=
  trimm τ (preds.map (fun p => 1 - p))

/-! ## Empirical quantile and the stored coefficient start value -/

/-- Insertion of one element into an ascending list, auxiliary to sorting. -/
def insertAsc (a : ℚ) : List ℚ → List ℚ
  | [] => [a]
  | b :: bs => if a ≤ b then a :: b :: bs else b :: insertAsc a bs

/-- Ascending insertion sort, modelling the sorting step of `np.quantile`. -/
def sortedAsc : List ℚ → List ℚ
  | [] => []
  | a :: as => insertAsc a (sortedAsc as)

/-- Floor of a nonnegative rational as a natural number. -/
def ratFloorNat (x : ℚ) : ℕ := x.num.toNat / x.den

/-- Model of `np.quantile(ys, q)` with the default linear-interpolation
method: for sorted values `s` of length `n`, the virtual index is
`h = (n-1)·q` and the result interpolates between `s[⌊h⌋]` and the next
entry. -/
def npQuantile (ys : List ℚ) (q : ℚ) : ℚ :=
  let s := sortedAsc ys
  let n := s.length
  let hIdx : ℚ := ((n : ℚ) - 1) * q
  let lo := ratFloorNat hIdx
  let hi := min (lo + 1) (n - 1)
  s.getD lo 0 + (hIdx - (lo : ℚ)) * (s.getD hi 0 - s.getD lo 0)

/-- Part of the estimator state holding the stored root-search start value
`_coef_start_val`. -/
structure PQCoefState where
  coef_start_val : ℚ

/-- Embedding of `DoubleMLPQ.__init__` line 147: the start value is the
empirical quantile of the outcomes. -/
def pqCoefInit (ys : List ℚ) (quantile : ℚ) : PQCoefState :=
  ⟨npQuantile ys quantile⟩

/-- Embedding of the effect of `_nuisance_est` on the stored start value:
line 303 executes `self._coef_start_val = ipw_est` once per fold, where
`ipw_est` is that fold's preliminary IPW root (the roots are inputs of the
model, since they depend on the fold's learner predictions). -/
def nuisance_est_start_val_pass (st : PQCoefState) (ipw_ests : List ℚ) : PQCoefState :=
  ipw_ests.foldl (fun _ r => PQCoefState.mk r) st

/-- Modelled from the spec: the coefficient root search of `fit_coefficient`
(spec 4.5, implemented by the `NonLinearScoreMixin` base class, whose source
is not part of this excerpt) is seeded by the coefficient's stored start
value. -/
def fit_coefficient_seed (st : PQCoefState) : ℚ := st.coef_start_val

/-! ## Learner state across folds (`_nuisance_est` lines 310–319) -/

/-- Opaque model of a scikit-learn style learner: hyperparameters plus the
training data of the most recent `fit`, `Option.none` when unfitted. -/
structure Learner where
  hyper : ℕ
  fitted : Option (List ℕ)
deriving DecidableEq

/-- Model of `sklearn.base.clone`: copy the hyperparameters, drop any fitted
state. -/
def clone (l : Learner) : Learner := ⟨l.hyper, Option.none⟩

/-- Model of an in-place `fit` call: the learner's fitted state is replaced
by the new training data, hyperparameters are unchanged. -/
def fit (l : Learner) (train : List ℕ) : Learner := ⟨l.hyper, Option.some train⟩

/-- The two learner objects stored in the estimator's state,
`self._learner['ml_g']` and `self._learner['ml_m']`. -/
structure LearnerState where
  ml_g : Learner
  ml_m : Learner
deriving DecidableEq

/-- Embedding of `DoubleMLPQ.__init__` line 156: the constructor stores
`clone(ml_g)` and `clone(ml_m)`. -/
def initLearners (ml_g ml_m : Learner) : LearnerState := ⟨clone ml_g, clone ml_m⟩

/-- Embedding of the learner-state effect of the fold loop of
`_nuisance_est`: each fold calls `self._learner['ml_g'].fit(...)` (line 312)
and `self._learner['ml_m'].fit(...)` (line 318) on the stored learner
objects themselves; `gData k` and `mData k` stand for fold `k`'s respective
training data. -/
def nuisance_est_learner_pass (st : LearnerState) (gData mData : ℕ → List ℕ)
    (n_folds : ℕ) : LearnerState :=
  (List.range n_folds).foldl
    (fun s k => ⟨fit s.ml_g (gData k), fit s.ml_m (mData k)⟩) st

/-! ## Constructor validation (`DoubleMLPQ.__init__` and its checks) -/

/-- Dynamically typed Python value, as far as the constructor's `isinstance`
checks distinguish values: booleans, integers, floats (embedded as exact
rationals), `None`, and anything else. -/
inductive PyVal where
  | pyBool : Bool → PyVal
  | pyInt : ℤ → PyVal
  | pyFloat : ℚ → PyVal
  | pyNone : PyVal
  | pyOther : PyVal
deriving DecidableEq

/-- Facets of the data container that the constructor's checks inspect:
whether it is a `DoubleMLData` instance, how many instrumental variables it
declares, the distinct values of the treatment column, and whether cluster
variables are present. -/
structure DMLDataModel where
  isDoubleMLData : Bool
  n_instr : ℕ
  dValues : List ℚ
  isClustered : Bool

/-- Arguments of `DoubleMLPQ.__init__` that participate in its validation. -/
structure PQInitArgs where
  data : DMLDataModel
  treatment : ℤ
  quantile : ℚ
  score : String
  trimming_rule : String
  trimming_threshold : ℚ
  h : PyVal
  normalize : PyVal

/-- Kinds of exception raised by the constructor's checks. -/
inductive PQError where
  | notImplementedError : PQError
  | typeError : PQError
  | valueError : PQError
deriving DecidableEq

/-- Embedding of `DoubleMLPQ.__init__` lines 126–128: a bandwidth of `None`
is replaced by the default `n_obs ** -0.2` (a float, here abstracted by the
`defaultH` argument) before any check runs. -/
def resolveBandwidthArg (defaultH : ℚ) (h : PyVal) : PyVal :=
  match h with
  | PyVal.pyNone => PyVal.pyFloat defaultH
  | v => v

/-- Embedding of `DoubleMLPQ._check_bandwidth` (lines 343–351): a
`TypeError` unless the value is a float, a `ValueError` unless it is
positive. -/
def bandwidthCheck (v : PyVal) : Except PQError Unit :=
  match v with
  | PyVal.pyFloat q => if q ≤ 0 then Except.error PQError.valueError else Except.ok ()
  | _ => Except.error PQError.typeError

/-- Embedding of `DoubleMLPQ.__init__` lines 141–143: a `TypeError` unless
the normalization indicator is a boolean. -/
def normalizeCheck (v : PyVal) : Except PQError Unit :=
  match v with
  | PyVal.pyBool _ => Except.ok ()
  | _ => Except.error PQError.typeError

/-- Embedding of the validation performed by `DoubleMLPQ.__init__`, in source
order: the clustering check (line 131), `_check_data` (data-container type,
instrumental variables, zero/one treatment), `_check_score`,
`_check_quantile`, `_check_treatment`, `_check_bandwidth` on the resolved
bandwidth, the normalization-indicator check, and `_check_trimming`.  The
check helpers imported from `_utils` are not part of this excerpt and are
modelled from the spec (section 7): quantile must lie in (0,1), treatment
must be 0 or 1, the trimming rule must be `'truncate'` with threshold in
(0, 0.5), the data must be a `DoubleMLData` container without instrumental
variables and with a 0/1 treatment. -/
def initCheck (defaultH : ℚ) (a : PQInitArgs) : Except PQError Unit :=
  if a.data.isClustered then Except.error PQError.notImplementedError
  else if ¬ a.data.isDoubleMLData then Except.error PQError.typeError
  else if 0 < a.data.n_instr then Except.error PQError.valueError
  else if ¬ (∀ v ∈ a.data.dValues, v = 0 ∨ v = 1) then Except.error PQError.valueError
  else if ¬ (a.score = "PQ") then Except.error PQError.valueError
  else if ¬ (0 < a.quantile ∧ a.quantile < 1) then Except.error PQError.valueError
  else if ¬ (a.treatment = 0 ∨ a.treatment = 1) then Except.error PQError.valueError
  else
    match bandwidthCheck (resolveBandwidthArg defaultH a.h) with
    | Except.error e => Except.error e
    | Except.ok _ =>
      match normalizeCheck a.normalize with
      | Except.error e => Except.error e
      | Except.ok _ =>
        if ¬ (a.trimming_rule = "truncate") then Except.error PQError.valueError
        else if ¬ (0 < a.trimming_threshold ∧ a.trimming_threshold < 1/2) then
          Except.error PQError.valueError
        else Except.ok ()

/-- The invalid-configuration conditions enumerated by the spec's error
taxonomy (section 7), as predicates on the constructor arguments. -/
def invalidPQConfig (a : PQInitArgs) : Prop :=
  ¬ (0 < a.quantile ∧ a.quantile < 1) ∨
  ¬ (a.treatment = 0 ∨ a.treatment = 1) ∨
  (a.h ≠ PyVal.pyNone ∧ ∀ q : ℚ, a.h = PyVal.pyFloat q → q ≤ 0) ∨
  ¬ (a.trimming_rule = "truncate") ∨
  ¬ (0 < a.trimming_threshold ∧ a.trimming_threshold < 1/2) ∨
  (∀ b : Bool, a.normalize ≠ PyVal.pyBool b) ∨
  ¬ a.data.isDoubleMLData ∨
  0 < a.data.n_instr ∨
  ¬ (∀ v ∈ a.data.dValues, v = 0 ∨ v = 1) ∨
  a.data.isClustered = true

/-- Concrete constructor arguments used as witness input: everything valid
except the quantile, which is `2 ∉ (0,1)`. -/
def examplePQArgs : PQInitArgs :=
  { data := { isDoubleMLData := true, n_instr := 0, dValues := [0, 1], isClustered := false }
    treatment := 1
    quantile := 2
    score := "PQ"
    trimming_rule := "truncate"
    trimming_threshold := 1/100
    h := PyVal.pyFloat 1
    normalize := PyVal.pyBool true }

/-! ## Hyperparameter tuning (`_nuisance_tuning`) -/

/-- Estimator state as far as `_nuisance_tuning` could touch it: the stored
learners and the stored coefficient start value. -/
structure PQState where
  learners : LearnerState
  coef_start_val : ℚ

/-- Arguments of `DoubleMLPQ._nuisance_tuning` (opaque payloads; the method
never reads them). -/
structure TuneArgs where
  param_grids : ℕ
  scoring_methods : ℕ
  n_folds_tune : ℕ
  n_jobs_cv : ℕ
  search_mode : String
  n_iter_randomized_search : ℕ

/-- Embedding of `DoubleMLPQ._nuisance_tuning` (lines 331–333): the body is a
single `raise NotImplementedError`, executed before any state mutation, so
the estimator state is returned untouched together with the error. -/
def nuisance_tuning (st : PQState) (smpls : List (List ℕ × List ℕ))
    (args : TuneArgs) : PQState × Except PQError Unit :=
  (st, Except.error PQError.notImplementedError)

/-! ## Score derivative (`_compute_score_deriv`) over the reals -/

/-- Bundle of the element arrays that `_compute_score_deriv` reads
(`ind_d`, `m`, `y`), embedded over the reals because the derivative involves
the Gaussian kernel. -/
structure PsiElementsR where
  ind_d : List ℝ
  m : List ℝ
  y : List ℝ

/-- Row restriction of the derivative's element arrays, as performed by the
`inds is not None` branch of `_compute_score_deriv`. -/
noncomputable def selectElementsR (e : PsiElementsR) (inds : List ℕ) : PsiElementsR :=
  ⟨selectD 0 e.ind_d inds, selectD 0 e.m inds, selectD 0 e.y inds⟩

/-- Arithmetic mean of a list, modelling `np.ndarray.mean` (sum divided by
length). -/
noncomputable def listMean (xs : List ℝ) : ℝ := xs.sum / xs.length

/-- The kernel expression of `_compute_score_deriv` line 250:
`np.exp(-1 * u**2 / 2) / np.sqrt(2 * np.pi)`. -/
noncomputable def gaussKernel (u : ℝ) : ℝ :=
  Real.exp (-1 * u ^ 2 / 2) / Real.sqrt (2 * Real.pi)

/-- Embedding of `DoubleMLPQ._compute_score_deriv` (lines 234–253):
optionally restrict the element arrays to `inds`; form the weights
`ind_d / m`; divide them by their mean when normalization is enabled; and
multiply by the Gaussian kernel of `(y - coef) / h`, divided by the
bandwidth `h`. -/
noncomputable def compute_score_deriv (normalize : Bool) (h : ℝ) (e : PsiElementsR)
    (coef : ℝ) (inds : Option (List ℕ)) : List ℝ :=
  let er := match inds with
    | Option.none => e
    | Option.some is => selectElementsR e is
  let score_weights := List.zipWith (fun i mi => i / mi) er.ind_d er.m
  let weights := if normalize then score_weights.map (fun w => w / listMean score_weights)
    else score_weights
  let kernel_est := er.y.map (fun yi => gaussKernel ((yi - coef) / h))
  List.zipWith (fun w k => w * k / h) weights kernel_est

/-- Embedding of `DoubleMLPQ.__init__` lines 126–128, value level: the
default bandwidth is `np.power(n_obs, -0.2)`. -/
noncomputable def defaultBandwidth (n_obs : ℕ) : ℝ := (n_obs : ℝ) ^ (-(0.2) : ℝ)

/-- The stored bandwidth `self._h` as a function of the constructor argument:
the argument itself when supplied, the default otherwise. -/
noncomputable def initH (hOpt : Option ℝ) (n_obs : ℕ) : ℝ :=
  match hOpt with
  | Option.none => defaultBandwidth n_obs
  | Option.some hv => hv

/-! ## The fold loop of `_nuisance_est` filling the prediction arrays -/

/-- Embedding of the assignments `g_hat[test_inds] = ...` /
`m_hat[test_inds] = ...` (lines 315, 319): every test index `j` of the fold
receives the fold model's prediction for row `j`; a missing entry (numpy
`NaN`, line 266–267) is `Option.none`. -/
def writeFold (arr : List (Option ℝ)) (test : List ℕ) (pred : ℕ → ℝ) : List (Option ℝ) :=
  test.foldl (fun a j => a.set j (Option.some (pred j))) arr

/-- The fold loop `for i_fold in range(self.n_folds)` of `_nuisance_est`,
writing one fold's test predictions at a time; `pred k j` is the prediction
of fold `k`'s fitted model on row `j`. -/
def foldLoopAux (pred : ℕ → ℕ → ℝ) : ℕ → List (List ℕ) → List (Option ℝ) → List (Option ℝ)
  | _, [], arr => arr
  | k, t :: ts, arr => foldLoopAux pred (k + 1) ts (writeFold arr t (pred k))

/-- One full pass of the fold loop over all folds, starting from the
all-missing array of length `n_obs` (lines 266–267). -/
def foldLoop (n_obs : ℕ) (tests : List (List ℕ)) (pred : ℕ → ℕ → ℝ) : List (Option ℝ) :=
  foldLoopAux pred 0 tests (List.replicate n_obs Option.none)

/-- Embedding of the prediction-array part of `_nuisance_est` (lines
265–328): fill `g_hat` and `m_hat` fold by fold over the test sets of
`smpls`, then invert `m_hat` when the treatment of interest is the baseline
level (lines 321–322) and trim it (line 324).  The per-fold prediction
functions `predG`, `predM` are inputs of the model (they are produced by the
fitted learners). -/
noncomputable def nuisance_est_preds (n_obs : ℕ) (smpls : List (List ℕ × List ℕ))
    (predG predM : ℕ → ℕ → ℝ) (treatment : ℤ) (trimming_threshold : ℝ) :
    List (Option ℝ) × List (Option ℝ) :=
  let g_hat := foldLoop n_obs (smpls.map Prod.snd) predG
  let m_hat0 := foldLoop n_obs (smpls.map Prod.snd) predM
  let m_hat1 := if treatment = 0 then m_hat0.map (Option.map (fun p => 1 - p)) else m_hat0
  let m_hat2 := m_hat1.map (Option.map (trimmEntry trimming_threshold))
  (g_hat, m_hat2)

/-! ## Pointwise lemmas for the vectorized operations -/

/-- Entry `i` of a four-way elementwise combination of equal-length lists. -/
theorem zipWith4_getD {α : Type} (f : α → α → α → α → α) (dflt : α) :
    ∀ (as bs cs ds : List α) (i : ℕ), i < as.length →
      as.length = bs.length → as.length = cs.length → as.length = ds.length →
      (zipWith4 f as bs cs ds).getD i dflt
        = f (as.getD i dflt) (bs.getD i dflt) (cs.getD i dflt) (ds.getD i dflt) := by
  intro as
  induction as with
  | nil => intro bs cs ds i hi _ _ _; simp at hi
  | cons a as ih =>
    intro bs cs ds i hi hb hc hd
    cases bs with
    | nil => simp at hb
    | cons b bs =>
      cases cs with
      | nil => simp at hc
      | cons c cs =>
        cases ds with
        | nil => simp at hd
        | cons d ds =>
          cases i with
          | zero => rfl
          | succ i =>
            simp only [zipWith4, List.getD_cons_succ]
            exact ih bs cs ds i (by simpa using hi) (by simpa using hb)
              (by simpa using hc) (by simpa using hd)

/-- Entry `i` of a two-way elementwise combination, within range of both
lists. -/
theorem zipWith_getD {α : Type} (f : α → α → α) (dflt : α) :
    ∀ (as bs : List α) (i : ℕ), i < as.length → i < bs.length →
      (List.zipWith f as bs).getD i dflt = f (as.getD i dflt) (bs.getD i dflt) := by
  intro as
  induction as with
  | nil => intro bs i hi _; simp at hi
  | cons a as ih =>
    intro bs i hi hib
    cases bs with
    | nil => simp at hib
    | cons b bs =>
      cases i with
      | zero => rfl
      | succ i =>
        simp only [List.zipWith_cons_cons, List.getD_cons_succ]
        exact ih bs i (by simpa using hi) (by simpa using hib)

/-- Entry `i` of a mapped list, within range. -/
theorem map_getD {α : Type} (f : α → α) (dflt : α) (as : List α) (i : ℕ)
    (hi : i < as.length) :
    (as.map f).getD i dflt = f (as.getD i dflt) := by
  rw [List.getD_eq_getElem _ _ (by simpa using hi), List.getElem_map,
    List.getD_eq_getElem _ _ hi]

/-- Row selection commutes with a two-way elementwise combination when every
selected index is in range of both lists. -/
theorem selectD_zipWith {α : Type} (f : α → α → α) (dflt : α) (as bs : List α) :
    ∀ (inds : List ℕ), (∀ j ∈ inds, j < as.length) → (∀ j ∈ inds, j < bs.length) →
      List.zipWith f (selectD dflt as inds) (selectD dflt bs inds)
        = selectD dflt (List.zipWith f as bs) inds := by
  intro inds
  induction inds with
  | nil => intro _ _; rfl
  | cons i is ih =>
    intro ha hb
    have hia : i < as.length := ha i (by simp)
    have hib : i < bs.length := hb i (by simp)
    simp only [selectD, List.map_cons, List.zipWith_cons_cons]
    have hhead : (List.zipWith f as bs).getD i dflt = f (as.getD i dflt) (bs.getD i dflt) :=
      zipWith_getD f dflt as bs i hia hib
    rw [hhead]
    have htail := ih (fun j hj => ha j (by simp [hj])) (fun j hj => hb j (by simp [hj]))
    simpa [selectD] using htail

/-- Row selection commutes with an elementwise map when every selected index
is in range. -/
theorem selectD_map {α : Type} (f : α → α) (dflt : α) (as : List α) :
    ∀ (inds : List ℕ), (∀ j ∈ inds, j < as.length) →
      (selectD dflt as inds).map f = selectD dflt (as.map f) inds := by
  intro inds
  induction inds with
  | nil => intro _; rfl
  | cons i is ih =>
    intro ha
    have hia : i < as.length := ha i (by simp)
    simp only [selectD, List.map_cons]
    rw [map_getD f dflt as i hia]
    have htail := ih (fun j hj => ha j (by simp [hj]))
    simpa [selectD] using htail

/-- Evaluating `_compute_score` on a row subset equals restricting the
full-sample evaluation to those rows. -/
theorem compute_score_select (quantile coef : ℚ) (e : PsiElements) (n : ℕ)
    (h1 : e.ind_d.length = n) (h2 : e.g.length = n) (h3 : e.m.length = n)
    (h4 : e.y.length = n) :
    ∀ (inds : List ℕ), (∀ j ∈ inds, j < n) →
      compute_score quantile e coef (Option.some inds)
        = selectD 0 (compute_score quantile e coef Option.none) inds := by
  intro inds
  induction inds with
  | nil => intro _; rfl
  | cons i is ih =>
    intro hb
    have hi : i < n := hb i (by simp)
    have hL : compute_score quantile e coef (Option.some (i :: is))
        = (e.ind_d.getD i 0 * (indLE (e.y.getD i 0) coef - e.g.getD i 0) / e.m.getD i 0
            + e.g.getD i 0 - quantile)
          :: compute_score quantile e coef (Option.some is) := by
      simp [compute_score, selectElements, selectD, zipWith4]
    have hhead : (compute_score quantile e coef Option.none).getD i 0
        = e.ind_d.getD i 0 * (indLE (e.y.getD i 0) coef - e.g.getD i 0) / e.m.getD i 0
            + e.g.getD i 0 - quantile := by
      simpa [compute_score] using
        zipWith4_getD (fun a b c d => a * (indLE d coef - b) / c + b - quantile) 0
          e.ind_d e.g e.m e.y i (h1 ▸ hi) (h1.trans h2.symm) (h1.trans h3.symm)
          (h1.trans h4.symm)
    rw [hL, ih (fun j hj => hb j (by simp [hj]))]
    simp only [selectD, List.map_cons]
    rw [hhead]

/-- Evaluating `_compute_score_deriv` without normalization on a row subset
equals restricting the full-sample evaluation to those rows. -/
theorem compute_score_deriv_select (h : ℝ) (e : PsiElementsR) (coef : ℝ) (n : ℕ)
    (h1 : e.ind_d.length = n) (h2 : e.m.length = n) (h3 : e.y.length = n)
    (inds : List ℕ) (hb : ∀ j ∈ inds, j < n) :
    compute_score_deriv false h e coef (Option.some inds)
      = selectD 0 (compute_score_deriv false h e coef Option.none) inds := by
  have hbi : ∀ j ∈ inds, j < e.ind_d.length := fun j hj => h1 ▸ hb j hj
  have hbm : ∀ j ∈ inds, j < e.m.length := fun j hj => h2 ▸ hb j hj
  have hby : ∀ j ∈ inds, j < e.y.length := fun j hj => h3 ▸ hb j hj
  have hw : List.zipWith (fun i mi => i / mi) (selectD 0 e.ind_d inds) (selectD 0 e.m inds)
      = selectD 0 (List.zipWith (fun i mi => i / mi) e.ind_d e.m) inds :=
    selectD_zipWith _ 0 e.ind_d e.m inds hbi hbm
  have hk : (selectD 0 e.y inds).map (fun yi => gaussKernel ((yi - coef) / h))
      = selectD 0 (e.y.map (fun yi => gaussKernel ((yi - coef) / h))) inds :=
    selectD_map _ 0 e.y inds hby
  have hbw : ∀ j ∈ inds, j < (List.zipWith (fun i mi => i / mi) e.ind_d e.m).length := by
    intro j hj
    simpa [h1, h2] using hb j hj
  have hbk : ∀ j ∈ inds, j < (e.y.map (fun yi => gaussKernel ((yi - coef) / h))).length := by
    intro j hj
    simpa [h3] using hb j hj
  simp only [compute_score_deriv, selectElementsR, Bool.false_eq_true, if_false]
  rw [hw, hk]
  exact selectD_zipWith _ 0 _ _ inds hbw hbk

/-- The kernel expression of `_compute_score_deriv` is the standard normal
density. -/
theorem gaussKernel_eq_gaussianPDFReal (x : ℝ) :
    gaussKernel x = ProbabilityTheory.gaussianPDFReal 0 1 x := by
  rw [ProbabilityTheory.gaussianPDFReal_def]
  simp only [NNReal.coe_one, mul_one, sub_zero]
  rw [gaussKernel, div_eq_inv_mul]
  ring_nf

/-- The kernel expression is strictly positive. -/
theorem gaussKernel_pos (u : ℝ) : 0 < gaussKernel u := by
  apply div_pos (Real.exp_pos _)
  apply Real.sqrt_pos.mpr
  positivity

/-! ## Claim theorems -/

/-- C1: for every score-element bundle of length `n`, every coefficient
value, and every entry `i < n`, `_compute_score` returns elementwise
`ind_d[i] * ((y[i] <= coef) - g[i]) / m[i] + g[i] - quantile`; and when an
index subset `inds` is supplied, the result is the restriction of the
full-sample result to those rows. -/
theorem claim_C1_compute_score (quantile coef : ℚ) (e : PsiElements) (n i : ℕ)
    (h1 : e.ind_d.length = n) (h2 : e.g.length = n) (h3 : e.m.length = n)
    (h4 : e.y.length = n) (hi : i < n) (inds : List ℕ) (hb : ∀ j ∈ inds, j < n) :
    (compute_score quantile e coef Option.none).getD i 0
      = e.ind_d.getD i 0 * ((if e.y.getD i 0 ≤ coef then (1 : ℚ) else 0) - e.g.getD i 0)
          / e.m.getD i 0 + e.g.getD i 0 - quantile
    ∧ compute_score quantile e coef (Option.some inds)
      = selectD 0 (compute_score quantile e coef Option.none) inds := by
  constructor
  · have := zipWith4_getD (fun a b c d => a * (indLE d coef - b) / c + b - quantile) 0
      e.ind_d e.g e.m e.y i (h1 ▸ hi) (h1.trans h2.symm) (h1.trans h3.symm)
      (h1.trans h4.symm)
    simpa [compute_score, indLE] using this
  · exact compute_score_select quantile coef e n h1 h2 h3 h4 inds hb

/-- Witness for C1 at the concrete bundle `{ind_d = [1], g = [1/2],
m = [1/3], y = [5]}`, coefficient `4`, quantile `1/2`, row subset `[0]`. -/
theorem claim_C1_witness :
    ((0 : ℕ) < 1 ∧ ∀ j ∈ [0], j < 1) ∧
    ((compute_score (1/2) ⟨[1], [1/2], [1/3], [5]⟩ 4 Option.none).getD 0 0
        = (1 : ℚ) * ((if (5 : ℚ) ≤ 4 then (1 : ℚ) else 0) - 1/2) / (1/3) + 1/2 - 1/2
      ∧ compute_score (1/2) ⟨[1], [1/2], [1/3], [5]⟩ 4 (Option.some [0])
        = selectD 0 (compute_score (1/2) ⟨[1], [1/2], [1/3], [5]⟩ 4 Option.none) [0]) := by
  refine ⟨⟨Nat.one_pos, by decide⟩, ?_⟩
  have h := claim_C1_compute_score (1/2) 4 ⟨[1], [1/2], [1/3], [5]⟩ 1 0
    rfl rfl rfl rfl Nat.one_pos [0] (by decide)
  simpa using h

/-- Clipping to the symmetric band `[τ, 1-τ]` commutes with the inversion
`p ↦ 1 - p`. -/
theorem trimmEntry_invert (τ p : ℚ) (hττ : τ ≤ 1 - τ) :
    1 - trimmEntry τ p = trimmEntry τ (1 - p) := by
  rcases le_total p τ with hpτ | hτp
  · rw [trimmEntry, max_eq_left hpτ, min_eq_right hττ,
      trimmEntry, max_eq_right (by linarith), min_eq_left (by linarith)]
  · rcases le_total p (1 - τ) with hp1 | h1p
    · rw [trimmEntry, max_eq_right hτp, min_eq_right hp1,
        trimmEntry, max_eq_right (by linarith), min_eq_right (by linarith)]
    · rw [trimmEntry, max_eq_right hτp, min_eq_left h1p,
        trimmEntry, max_eq_left (by linarith), min_eq_right hττ]
      linarith

/-- Clipping a value already inside the band leaves it unchanged. -/
theorem trimmEntry_of_mem (τ p : ℚ) (hl : τ ≤ p) (hr : p ≤ 1 - τ) :
    trimmEntry τ p = p := by
  rw [trimmEntry, max_eq_right hl, min_eq_right hr]

/-- C4: with baseline treatment (`treatment = 0`), the preliminary
propensity vector built by `_nuisance_est` (trim first, then invert, lines
287–289) equals the spec's invert-then-trim order (spec 4.4 steps 2–3), for
every raw prediction vector and every threshold in (0, 1/2). -/
theorem claim_C4_prelim_propensity (τ : ℚ) (preds : List ℚ)
    (h0 : 0 < τ) (h1 : τ < 1/2) :
    m_hat_prelim_code τ 0 preds = m_hat_prelim_spec τ preds := by
  have hττ : τ ≤ 1 - τ := by linarith
  simp only [m_hat_prelim_code, m_hat_prelim_spec, trimm, if_true, List.map_map,
    reduceIte]
  apply List.map_congr_left
  intro a _
  simpa [Function.comp] using trimmEntry_invert τ a hττ

/-- Witness for C4 at threshold `1/4` and raw predictions `[0, 2/3, 2]`. -/
theorem claim_C4_witness :
    ((0 : ℚ) < 1/4 ∧ (1/4 : ℚ) < 1/2) ∧
    m_hat_prelim_code (1/4) 0 [0, 2/3, 2] = m_hat_prelim_spec (1/4) [0, 2/3, 2] :=
  ⟨⟨by norm_num, by norm_num⟩,
    claim_C4_prelim_propensity (1/4) [0, 2/3, 2] (by norm_num) (by norm_num)⟩

/-- C9: for every probability-like array and threshold `τ ∈ (0, 1/2)`, every
entry of the trimmed array lies in `[τ, 1-τ]`, and trimming is idempotent. -/
theorem claim_C9_trimming (τ : ℚ) (ps : List ℚ) (h0 : 0 < τ) (h1 : τ < 1/2) :
    (∀ p ∈ trimm τ ps, τ ≤ p ∧ p ≤ 1 - τ) ∧ trimm τ (trimm τ ps) = trimm τ ps := by
  have hττ : τ ≤ 1 - τ := by linarith
  constructor
  · intro p hp
    rw [trimm] at hp
    obtain ⟨a, _, rfl⟩ := List.mem_map.mp hp
    exact ⟨le_min hττ (le_max_left τ a), min_le_left _ _⟩
  · rw [trimm, trimm, List.map_map]
    apply List.map_congr_left
    intro a _
    have hl : τ ≤ trimmEntry τ a := le_min hττ (le_max_left τ a)
    have hr : trimmEntry τ a ≤ 1 - τ := min_le_left _ _
    simpa [Function.comp] using trimmEntry_of_mem τ (trimmEntry τ a) hl hr

/-- Witness for C9 at threshold `1/4` and array `[0, 2/3, 2]`. -/
theorem claim_C9_witness :
    ((0 : ℚ) < 1/4 ∧ (1/4 : ℚ) < 1/2) ∧
    ((∀ p ∈ trimm (1/4 : ℚ) [0, 2/3, 2], 1/4 ≤ p ∧ p ≤ 1 - 1/4) ∧
      trimm (1/4 : ℚ) (trimm (1/4) [0, 2/3, 2]) = trimm (1/4 : ℚ) [0, 2/3, 2]) :=
  ⟨⟨by norm_num, by norm_num⟩,
    claim_C9_trimming (1/4) [0, 2/3, 2] (by norm_num) (by norm_num)⟩

/-- C2: `_compute_score_deriv` returns per observation the weight
`ind_d[i]/m[i]` — divided by the sample mean of those weights when
normalization is enabled, unnormalized otherwise — multiplied by the
standard normal density `φ((y[i] - coef)/h) / h`, where `h` is the stored
bandwidth; and the stored bandwidth defaults to `n_obs ** -0.2` when
constructed with `h = None`. -/
theorem claim_C2_compute_score_deriv (normalize : Bool) (hOpt : Option ℝ) (n_obs : ℕ)
    (e : PsiElementsR) (coef : ℝ) (i : ℕ)
    (h1 : e.ind_d.length = n_obs) (h2 : e.m.length = n_obs) (h3 : e.y.length = n_obs)
    (hi : i < n_obs) :
    initH Option.none n_obs = (n_obs : ℝ) ^ (-(0.2) : ℝ)
    ∧ (compute_score_deriv normalize (initH hOpt n_obs) e coef Option.none).getD i 0
      = (if normalize then
          (e.ind_d.getD i 0 / e.m.getD i 0)
            / listMean (List.zipWith (fun a b => a / b) e.ind_d e.m)
        else e.ind_d.getD i 0 / e.m.getD i 0)
        * ProbabilityTheory.gaussianPDFReal 0 1 ((e.y.getD i 0 - coef) / initH hOpt n_obs)
        / initH hOpt n_obs := by
  constructor
  · rfl
  · have hsw := zipWith_getD (fun a b => a / b) (0 : ℝ) e.ind_d e.m i (h1 ▸ hi) (h2 ▸ hi)
    have hkern := map_getD (fun yi => gaussKernel ((yi - coef) / initH hOpt n_obs)) (0 : ℝ)
      e.y i (h3 ▸ hi)
    cases normalize with
    | false =>
      simp only [compute_score_deriv, Bool.false_eq_true, if_false]
      rw [zipWith_getD _ (0 : ℝ) _ _ i (by simpa [h1, h2] using hi) (by simpa [h3] using hi)]
      rw [hsw, hkern]
      simp only [gaussKernel_eq_gaussianPDFReal]
    | true =>
      simp only [compute_score_deriv, if_true]
      rw [zipWith_getD _ (0 : ℝ) _ _ i (by simpa [h1, h2] using hi) (by simpa [h3] using hi)]
      rw [map_getD _ (0 : ℝ) _ i (by simpa [h1, h2] using hi)]
      rw [hsw, hkern]
      simp only [gaussKernel_eq_gaussianPDFReal]

/-- Witness for C2 at the bundle `{ind_d = [1], m = [1], y = [0]}`,
coefficient `0`, explicit bandwidth `1`, normalization disabled. -/
theorem claim_C2_witness :
    (0 : ℕ) < 1 ∧
    (initH Option.none 1 = ((1 : ℕ) : ℝ) ^ (-(0.2) : ℝ)
      ∧ (compute_score_deriv false (initH (Option.some 1) 1) (PsiElementsR.mk [1] [1] [0]) 0
          Option.none).getD 0 0
        = ProbabilityTheory.gaussianPDFReal 0 1 (0 / initH (Option.some 1) 1)
            / initH (Option.some 1) 1) := by
  refine ⟨Nat.one_pos, ?_⟩
  have h := claim_C2_compute_score_deriv false (Option.some 1) 1 (PsiElementsR.mk [1] [1] [0])
    0 0 rfl rfl rfl Nat.one_pos
  simpa using h

/-- C10: subset evaluation of `_compute_score` equals the restriction of the
full-sample evaluation; the same holds for `_compute_score_deriv` with
normalization disabled; with normalization enabled the subset evaluation
uses the subset's own weight mean, so it differs from the restriction of the
full evaluation (shown at an explicit input). -/
theorem claim_C10_subset_consistency (quantile coef : ℚ) (e : PsiElements) (n : ℕ)
    (h1 : e.ind_d.length = n) (h2 : e.g.length = n) (h3 : e.m.length = n)
    (h4 : e.y.length = n) (inds : List ℕ) (hb : ∀ j ∈ inds, j < n)
    (hr : ℝ) (er : PsiElementsR) (coefR : ℝ) (nr : ℕ)
    (hr1 : er.ind_d.length = nr) (hr2 : er.m.length = nr) (hr3 : er.y.length = nr)
    (indsR : List ℕ) (hbR : ∀ j ∈ indsR, j < nr) :
    compute_score quantile e coef (Option.some inds)
      = selectD 0 (compute_score quantile e coef Option.none) inds
    ∧ compute_score_deriv false hr er coefR (Option.some indsR)
      = selectD 0 (compute_score_deriv false hr er coefR Option.none) indsR
    ∧ compute_score_deriv true 1 (PsiElementsR.mk [1, 1] [1, 1/2] [0, 0]) 0
        (Option.some [0])
      ≠ selectD 0 (compute_score_deriv true 1 (PsiElementsR.mk [1, 1] [1, 1/2] [0, 0]) 0
          Option.none) [0] := by
  refine ⟨compute_score_select quantile coef e n h1 h2 h3 h4 inds hb,
    compute_score_deriv_select hr er coefR nr hr1 hr2 hr3 indsR hbR, ?_⟩
  intro hEq
  simp only [compute_score_deriv, selectElementsR, selectD, listMean, List.map_cons,
    List.map_nil, List.zipWith_cons_cons, List.zipWith_nil_right, List.getD_cons_zero,
    List.sum_cons, List.sum_nil, List.length_cons, List.length_nil, if_true] at hEq
  norm_num at hEq
  have hK := gaussKernel_pos ((0 : ℝ) / 1)
  linarith

/-- Witness for C10 at concrete one-row bundles and the row subset `[0]`. -/
theorem claim_C10_witness :
    (∀ j ∈ [0], j < 1) ∧
    compute_score (1/2) ⟨[1], [1/2], [1/3], [5]⟩ 4 (Option.some [0])
      = selectD 0 (compute_score (1/2) ⟨[1], [1/2], [1/3], [5]⟩ 4 Option.none) [0] ∧
    compute_score_deriv false 1 (PsiElementsR.mk [1] [1] [0]) 0 (Option.some [0])
      = selectD 0 (compute_score_deriv false 1 (PsiElementsR.mk [1] [1] [0]) 0
          Option.none) [0] := by
  have h := claim_C10_subset_consistency (1/2) 4 ⟨[1], [1/2], [1/3], [5]⟩ 1
    rfl rfl rfl rfl [0] (by decide)
    1 (PsiElementsR.mk [1] [1] [0]) 0 1 rfl rfl rfl [0] (by decide)
  exact ⟨by decide, h.1, h.2.1⟩

/-- Unfolding of one write of `writeFold`. -/
theorem writeFold_cons (arr : List (Option ℝ)) (j : ℕ) (ts : List ℕ) (p : ℕ → ℝ) :
    writeFold arr (j :: ts) p = writeFold (arr.set j (Option.some (p j))) ts p := rfl

/-- Entry `i` of an array after a single index assignment. -/
theorem set_getD_eq (arr : List (Option ℝ)) (j i : ℕ) (v : Option ℝ) :
    (arr.set j v).getD i Option.none
      = if j = i ∧ j < arr.length then v else arr.getD i Option.none := by
  rw [List.getD_eq_getElem?_getD, List.getElem?_set, List.getD_eq_getElem?_getD]
  by_cases h : j = i
  · subst h
    by_cases h2 : j < arr.length
    · simp [h2]
    · simp [h2, List.getElem?_eq_none (le_of_not_lt h2)]
  · simp [h]

/-- Writing a fold's test predictions preserves the array length. -/
theorem writeFold_length (t : List ℕ) : ∀ (arr : List (Option ℝ)) (p : ℕ → ℝ),
    (writeFold arr t p).length = arr.length := by
  induction t with
  | nil => intro arr p; rfl
  | cons j ts ih =>
    intro arr p
    rw [writeFold_cons, ih]
    simp

/-- Entries outside the fold's test set are untouched by `writeFold`. -/
theorem writeFold_getD_not_mem (t : List ℕ) : ∀ (arr : List (Option ℝ)) (p : ℕ → ℝ)
    (i : ℕ), i ∉ t →
    (writeFold arr t p).getD i Option.none = arr.getD i Option.none := by
  induction t with
  | nil => intro arr p i _; rfl
  | cons j ts ih =>
    intro arr p i hni
    rw [writeFold_cons, ih _ _ _ (fun h => hni (List.mem_cons_of_mem _ h)), set_getD_eq]
    have hc : ¬ (j = i ∧ j < arr.length) := by
      rintro ⟨rfl, _⟩
      exact hni (List.mem_cons_self _ _)
    simp [hc]

/-- Every in-range test index of the fold receives that row's prediction. -/
theorem writeFold_getD_mem (t : List ℕ) : ∀ (arr : List (Option ℝ)) (p : ℕ → ℝ)
    (i : ℕ), i ∈ t → i < arr.length →
    (writeFold arr t p).getD i Option.none = Option.some (p i) := by
  induction t with
  | nil => intro arr p i h _; simp at h
  | cons j ts ih =>
    intro arr p i hmem hlen
    rw [writeFold_cons]
    by_cases hits : i ∈ ts
    · exact ih _ _ _ hits (by simpa using hlen)
    · have hji : j = i := by
        rcases List.mem_cons.mp hmem with h | h
        · exact h.symm
        · exact absurd h hits
      rw [writeFold_getD_not_mem ts _ _ _ hits, set_getD_eq]
      subst hji
      simp [hlen]

/-- An already-filled entry stays filled through a fold's writes. -/
theorem writeFold_isSome_mono (t : List ℕ) : ∀ (arr : List (Option ℝ)) (p : ℕ → ℝ)
    (i : ℕ), (arr.getD i Option.none).isSome = true →
    ((writeFold arr t p).getD i Option.none).isSome = true := by
  induction t with
  | nil => intro arr p i h; exact h
  | cons j ts ih =>
    intro arr p i h
    rw [writeFold_cons]
    apply ih
    rw [set_getD_eq]
    by_cases hc : j = i ∧ j < arr.length
    · obtain ⟨rfl, hlt⟩ := hc
      simp [hlt]
    · simpa [hc] using h

/-- The fold loop preserves the array length. -/
theorem foldLoopAux_length (ts : List (List ℕ)) : ∀ (k : ℕ) (arr : List (Option ℝ))
    (pred : ℕ → ℕ → ℝ), (foldLoopAux pred k ts arr).length = arr.length := by
  induction ts with
  | nil => intro k arr pred; rfl
  | cons t ts ih =>
    intro k arr pred
    show (foldLoopAux pred (k + 1) ts (writeFold arr t (pred k))).length = arr.length
    rw [ih, writeFold_length]

/-- An already-filled entry stays filled through the whole fold loop. -/
theorem foldLoopAux_isSome_mono (ts : List (List ℕ)) : ∀ (k : ℕ) (arr : List (Option ℝ))
    (pred : ℕ → ℕ → ℝ) (i : ℕ), (arr.getD i Option.none).isSome = true →
    ((foldLoopAux pred k ts arr).getD i Option.none).isSome = true := by
  induction ts with
  | nil => intro k arr pred i h; exact h
  | cons t ts ih =>
    intro k arr pred i h
    exact ih (k + 1) _ _ i (writeFold_isSome_mono t arr _ i h)

/-- An in-range row covered by some fold's test set is filled after the fold
loop. -/
theorem foldLoopAux_isSome_of_mem (ts : List (List ℕ)) : ∀ (k : ℕ)
    (arr : List (Option ℝ)) (pred : ℕ → ℕ → ℝ) (i : ℕ), i < arr.length →
    (∃ t ∈ ts, i ∈ t) →
    ((foldLoopAux pred k ts arr).getD i Option.none).isSome = true := by
  induction ts with
  | nil => intro k arr pred i _ h; simp at h
  | cons t ts ih =>
    intro k arr pred i hlen hex
    by_cases hit : ∃ t2 ∈ ts, i ∈ t2
    · exact ih (k + 1) _ _ i (by rw [writeFold_length]; exact hlen) hit
    · have hin : i ∈ t := by
        rcases hex with ⟨t2, ht2, hi2⟩
        rcases List.mem_cons.mp ht2 with h | h
        · exact h ▸ hi2
        · exact absurd ⟨t2, h, hi2⟩ hit
      show ((foldLoopAux pred (k + 1) ts (writeFold arr t (pred k))).getD i
          Option.none).isSome = true
      apply foldLoopAux_isSome_mono
      rw [writeFold_getD_mem t arr _ i hin hlen]
      rfl

/-- A row covered by no fold's test set is untouched by the fold loop. -/
theorem foldLoopAux_getD_not_mem (ts : List (List ℕ)) : ∀ (k : ℕ)
    (arr : List (Option ℝ)) (pred : ℕ → ℕ → ℝ) (i : ℕ), (∀ t ∈ ts, i ∉ t) →
    (foldLoopAux pred k ts arr).getD i Option.none = arr.getD i Option.none := by
  induction ts with
  | nil => intro k arr pred i _; rfl
  | cons t ts ih =>
    intro k arr pred i hni
    show (foldLoopAux pred (k + 1) ts (writeFold arr t (pred k))).getD i Option.none = _
    rw [ih (k + 1) _ _ i (fun t2 ht2 => hni t2 (List.mem_cons_of_mem _ ht2)),
      writeFold_getD_not_mem t arr _ i (hni t (List.mem_cons_self _ _))]

/-- Entry `i` of an elementwise `Option.map` over an option array. -/
theorem map_optionMap_getD (f : ℝ → ℝ) (l : List (Option ℝ)) (i : ℕ) :
    (l.map (Option.map f)).getD i Option.none = Option.map f (l.getD i Option.none) := by
  rw [List.getD_eq_getElem?_getD, List.getElem?_map, List.getD_eq_getElem?_getD]
  cases l[i]? <;> rfl

/-- The all-missing initial array has no filled entry. -/
theorem replicate_none_getD (n i : ℕ) :
    (List.replicate n (Option.none : Option ℝ)).getD i Option.none = Option.none := by
  rw [List.getD_eq_getElem?_getD, List.getElem?_replicate]
  by_cases h : i < n <;> simp [h]

/-- Mapping a function over the entries of an option array preserves
filledness of each entry. -/
theorem map_optionMap_isSome (f : ℝ → ℝ) (l : List (Option ℝ)) (i : ℕ) :
    ((l.map (Option.map f)).getD i Option.none).isSome
      = (l.getD i Option.none).isSome := by
  rw [map_optionMap_getD]
  cases l.getD i Option.none <;> rfl

/-- Mapping a function over the entries of an option array preserves missing
entries. -/
theorem map_optionMap_none (f : ℝ → ℝ) (l : List (Option ℝ)) (i : ℕ)
    (h : l.getD i Option.none = Option.none) :
    (l.map (Option.map f)).getD i Option.none = Option.none := by
  rw [map_optionMap_getD, h]
  rfl

/-- C3: for a sample split whose test sets are pairwise disjoint, lie in
range, and cover `[0, n)`, one full pass of the `_nuisance_est` fold loop
returns `g_hat` and `m_hat` of length `n` with every entry filled (no `NaN`);
and for any split, an index covered by no test set keeps its `NaN` entry. -/
theorem claim_C3_nuisance_fill (n : ℕ) (smpls : List (List ℕ × List ℕ))
    (predG predM : ℕ → ℕ → ℝ) (treatment : ℤ) (τ : ℝ)
    (hcov : ∀ i, i < n → ∃ p ∈ smpls, i ∈ p.2)
    (hdisj : smpls.Pairwise (fun p q => ∀ i ∈ p.2, i ∉ q.2))
    (hrange : ∀ p ∈ smpls, ∀ j ∈ p.2, j < n) :
    ((nuisance_est_preds n smpls predG predM treatment τ).1.length = n
      ∧ (nuisance_est_preds n smpls predG predM treatment τ).2.length = n)
    ∧ (∀ i, i < n →
        ((nuisance_est_preds n smpls predG predM treatment τ).1.getD i
          Option.none).isSome = true
        ∧ ((nuisance_est_preds n smpls predG predM treatment τ).2.getD i
          Option.none).isSome = true)
    ∧ (∀ (smpls2 : List (List ℕ × List ℕ)) (i : ℕ), (∀ p ∈ smpls2, i ∉ p.2) →
        (nuisance_est_preds n smpls2 predG predM treatment τ).1.getD i
          Option.none = Option.none
        ∧ (nuisance_est_preds n smpls2 predG predM treatment τ).2.getD i
          Option.none = Option.none) := by
  have hg : ∀ (s2 : List (List ℕ × List ℕ)),
      (nuisance_est_preds n s2 predG predM treatment τ).1
        = foldLoop n (s2.map Prod.snd) predG := fun _ => rfl
  have hm : ∀ (s2 : List (List ℕ × List ℕ)),
      (nuisance_est_preds n s2 predG predM treatment τ).2
        = ((if treatment = 0
            then (foldLoop n (s2.map Prod.snd) predM).map (Option.map (fun p => 1 - p))
            else foldLoop n (s2.map Prod.snd) predM).map
              (Option.map (trimmEntry τ))) := fun _ => rfl
  have hlenLoop : ∀ (s2 : List (List ℕ × List ℕ)) (pr : ℕ → ℕ → ℝ),
      (foldLoop n (s2.map Prod.snd) pr).length = n := by
    intro s2 pr
    rw [foldLoop, foldLoopAux_length, List.length_replicate]
  have hmAfterSome : ∀ (s2 : List (List ℕ × List ℕ)) (i : ℕ),
      ((if treatment = 0
          then (foldLoop n (s2.map Prod.snd) predM).map (Option.map (fun p => 1 - p))
          else foldLoop n (s2.map Prod.snd) predM).getD i Option.none).isSome
        = ((foldLoop n (s2.map Prod.snd) predM).getD i Option.none).isSome := by
    intro s2 i
    by_cases ht : treatment = 0
    · rw [if_pos ht, map_optionMap_isSome]
    · rw [if_neg ht]
  refine ⟨⟨?_, ?_⟩, ?_, ?_⟩
  · rw [hg]
    exact hlenLoop smpls predG
  · rw [hm]
    by_cases ht : treatment = 0
    · rw [if_pos ht]
      simp [hlenLoop smpls predM]
    · rw [if_neg ht]
      simp [hlenLoop smpls predM]
  · intro i hi
    have hexG : ∃ t ∈ smpls.map Prod.snd, i ∈ t := by
      obtain ⟨p, hp, hip⟩ := hcov i hi
      exact ⟨p.2, List.mem_map_of_mem Prod.snd hp, hip⟩
    have hiArr : i < (List.replicate n (Option.none : Option ℝ)).length := by
      simpa using hi
    constructor
    · rw [hg]
      exact foldLoopAux_isSome_of_mem _ 0 _ predG i hiArr hexG
    · rw [hm, map_optionMap_isSome, hmAfterSome]
      exact foldLoopAux_isSome_of_mem _ 0 _ predM i hiArr hexG
  · intro smpls2 i hni
    have hniT : ∀ t ∈ smpls2.map Prod.snd, i ∉ t := by
      intro t ht
      obtain ⟨p, hp, rfl⟩ := List.mem_map.mp ht
      exact hni p hp
    have hLoopNone : ∀ (pr : ℕ → ℕ → ℝ),
        (foldLoop n (smpls2.map Prod.snd) pr).getD i Option.none = Option.none := by
      intro pr
      rw [foldLoop, foldLoopAux_getD_not_mem _ 0 _ pr i hniT, replicate_none_getD]
    constructor
    · rw [hg]
      exact hLoopNone predG
    · rw [hm]
      apply map_optionMap_none
      by_cases ht : treatment = 0
      · rw [if_pos ht]
        exact map_optionMap_none _ _ _ (hLoopNone predM)
      · rw [if_neg ht]
        exact hLoopNone predM

/-- Witness for C3 at the two-fold split `[([1], [0]), ([0], [1])]` of two
observations. -/
theorem claim_C3_witness :
    (∀ i, i < 2 → ∃ p ∈ ([([1], [0]), ([0], [1])] : List (List ℕ × List ℕ)), i ∈ p.2) ∧
    ([([1], [0]), ([0], [1])] : List (List ℕ × List ℕ)).Pairwise
      (fun p q => ∀ i ∈ p.2, i ∉ q.2) ∧
    (∀ p ∈ ([([1], [0]), ([0], [1])] : List (List ℕ × List ℕ)), ∀ j ∈ p.2, j < 2) ∧
    ((nuisance_est_preds 2 [([1], [0]), ([0], [1])] (fun _ _ => (0 : ℝ))
        (fun _ _ => (0 : ℝ)) 1 (1/4)).1.length = 2
      ∧ (nuisance_est_preds 2 [([1], [0]), ([0], [1])] (fun _ _ => (0 : ℝ))
        (fun _ _ => (0 : ℝ)) 1 (1/4)).2.length = 2) := by
  refine ⟨by decide, by decide, by decide, ?_⟩
  exact (claim_C3_nuisance_fill 2 [([1], [0]), ([0], [1])] (fun _ _ => (0 : ℝ))
    (fun _ _ => (0 : ℝ)) 1 (1/4) (by decide) (by decide) (by decide)).1

/-- The fold loop of `_nuisance_est` never changes the hyperparameters of the
stored learners, only their fitted state. -/
theorem learner_pass_hyper (gData mData : ℕ → List ℕ) :
    ∀ (n : ℕ) (st : LearnerState),
      (nuisance_est_learner_pass st gData mData n).ml_g.hyper = st.ml_g.hyper
      ∧ (nuisance_est_learner_pass st gData mData n).ml_m.hyper = st.ml_m.hyper := by
  intro n
  induction n with
  | zero => intro st; exact ⟨rfl, rfl⟩
  | succ k ih =>
    intro st
    have hstep : nuisance_est_learner_pass st gData mData (k + 1)
        = ⟨fit (nuisance_est_learner_pass st gData mData k).ml_g (gData k),
           fit (nuisance_est_learner_pass st gData mData k).ml_m (mData k)⟩ := by
      simp only [nuisance_est_learner_pass, List.range_succ, List.foldl_append,
        List.foldl_cons, List.foldl_nil]
    rw [hstep]
    exact ⟨(ih st).1, (ih st).2⟩

/-- C5 counterexample: the learner objects stored at construction are
mutated by the fold loop of `_nuisance_est` — after two folds the stored
learner state differs from the freshly-constructed one, refuting
"the learner objects stored in the estimator's state are never mutated by
fitting across folds". -/
theorem claim_C5_counterexample :
    ¬ (nuisance_est_learner_pass (initLearners ⟨7, Option.none⟩ ⟨8, Option.none⟩)
        (fun k => [k]) (fun k => [k, k + 1]) 2
      = initLearners ⟨7, Option.none⟩ ⟨8, Option.none⟩) := by
  decide

/-- C5 amended: the constructor stores clones of the caller's learner
blueprints (so the caller's objects are never touched), but the per-fold
`fit` calls of `_nuisance_est` act in place on the stored learners; each
fold's fit overwrites, rather than accumulates, the previous fold's fitted
state, so after the loop the stored learners equal fresh clones of the
blueprints fitted on the last fold's data alone. -/
theorem claim_C5_amended (g m : Learner) (gData mData : ℕ → List ℕ) (n : ℕ)
    (hn : 0 < n) :
    initLearners g m = ⟨clone g, clone m⟩
    ∧ (initLearners g m).ml_g.fitted = Option.none
    ∧ (initLearners g m).ml_m.fitted = Option.none
    ∧ nuisance_est_learner_pass (initLearners g m) gData mData n
      = ⟨fit (clone g) (gData (n - 1)), fit (clone m) (mData (n - 1))⟩ := by
  refine ⟨rfl, rfl, rfl, ?_⟩
  cases n with
  | zero => exact absurd hn (by simp)
  | succ k =>
    have hstep : nuisance_est_learner_pass (initLearners g m) gData mData (k + 1)
        = ⟨fit (nuisance_est_learner_pass (initLearners g m) gData mData k).ml_g (gData k),
           fit (nuisance_est_learner_pass (initLearners g m) gData mData k).ml_m (mData k)⟩ := by
      simp only [nuisance_est_learner_pass, List.range_succ, List.foldl_append,
        List.foldl_cons, List.foldl_nil]
    rw [hstep]
    have hh := learner_pass_hyper gData mData k (initLearners g m)
    simp only [fit, clone, Nat.add_sub_cancel, hh.1, hh.2]
    rfl

/-- Witness for the amended C5 at concrete blueprints and one fold. -/
theorem claim_C5_witness :
    (0 : ℕ) < 1 ∧
    (initLearners ⟨7, Option.none⟩ ⟨8, Option.none⟩
        = ⟨clone ⟨7, Option.none⟩, clone ⟨8, Option.none⟩⟩
      ∧ (initLearners ⟨7, Option.none⟩ ⟨8, Option.none⟩).ml_g.fitted = Option.none
      ∧ (initLearners ⟨7, Option.none⟩ ⟨8, Option.none⟩).ml_m.fitted = Option.none
      ∧ nuisance_est_learner_pass (initLearners ⟨7, Option.none⟩ ⟨8, Option.none⟩)
          (fun k => [k]) (fun k => [k, k + 1]) 1
        = ⟨fit (clone ⟨7, Option.none⟩) [0], fit (clone ⟨8, Option.none⟩) [0, 1]⟩) :=
  ⟨Nat.one_pos, claim_C5_amended ⟨7, Option.none⟩ ⟨8, Option.none⟩
    (fun k => [k]) (fun k => [k, k + 1]) 1 Nat.one_pos⟩

/-- After the fold loop, the stored start value is the last fold's
preliminary IPW estimate (or the initial value when no fold ran). -/
theorem start_val_pass_getLast (ipw_ests : List ℚ) : ∀ (st : PQCoefState),
    (nuisance_est_start_val_pass st ipw_ests).coef_start_val
      = ipw_ests.getLastD st.coef_start_val := by
  induction ipw_ests with
  | nil => intro st; rfl
  | cons r rs ih =>
    intro st
    show (nuisance_est_start_val_pass ⟨r⟩ rs).coef_start_val
      = (r :: rs).getLastD st.coef_start_val
    rw [ih ⟨r⟩, List.getLastD_cons]

/-- The empirical quantile of a one-element sample is its element. -/
theorem npQuantile_single (a q : ℚ) : npQuantile [a] q = a := by
  have h0 : (((sortedAsc [a]).length : ℚ) - 1) * q = 0 := by
    norm_num [sortedAsc, insertAsc]
  simp only [npQuantile, h0]
  norm_num [sortedAsc, insertAsc, ratFloorNat]

/-- C8: `_nuisance_tuning` raises `NotImplementedError` for every input and
leaves the estimator state unchanged. -/
theorem claim_C8_tuning (st : PQState) (smpls : List (List ℕ × List ℕ))
    (args : TuneArgs) :
    (nuisance_tuning st smpls args).2 = Except.error PQError.notImplementedError
    ∧ (nuisance_tuning st smpls args).1 = st :=
  ⟨rfl, rfl⟩

/-- C6 counterexample: after `_nuisance_est` runs one fold whose preliminary
IPW root is `7` on the one-observation sample `y = [2]` (whose empirical
median is `2`), the stored start value is `7`, not the empirical quantile —
refuting "the warm-start guess does not persist in the estimator's state
after `_nuisance_est` returns". -/
theorem claim_C6_counterexample :
    fit_coefficient_seed (nuisance_est_start_val_pass (pqCoefInit [2] (1/2)) [7])
      ≠ npQuantile [2] (1/2) := by
  rw [npQuantile_single]
  have hseed : fit_coefficient_seed
      (nuisance_est_start_val_pass (pqCoefInit [2] (1/2)) [7]) = 7 := rfl
  rw [hseed]
  norm_num

/-- C6 amended: the final coefficient root search is seeded by the stored
start value, which equals the empirical quantile of `y` at construction but
is overwritten by each fold of `_nuisance_est` (line 303) and persists: after
the fold loop it equals the last fold's preliminary IPW estimate (the
construction value only when no fold ran). -/
theorem claim_C6_amended (ys : List ℚ) (q : ℚ) (ipw_ests : List ℚ) :
    fit_coefficient_seed (pqCoefInit ys q) = npQuantile ys q
    ∧ fit_coefficient_seed (nuisance_est_start_val_pass (pqCoefInit ys q) ipw_ests)
      = ipw_ests.getLastD (npQuantile ys q) :=
  ⟨rfl, start_val_pass_getLast ipw_ests (pqCoefInit ys q)⟩

/-- A passing bandwidth check means the checked value was a positive float. -/
theorem bandwidthCheck_ok (v : PyVal) (h : bandwidthCheck v = Except.ok ()) :
    ∃ q : ℚ, v = PyVal.pyFloat q ∧ 0 < q := by
  cases v with
  | pyFloat q =>
    refine ⟨q, rfl, ?_⟩
    by_cases hq : q ≤ 0
    · have hval : bandwidthCheck (PyVal.pyFloat q) = Except.error PQError.valueError := by
        simp [bandwidthCheck, hq]
      rw [hval] at h
      exact Except.noConfusion h
    · exact lt_of_not_le hq
  | pyBool b => exact Except.noConfusion h
  | pyInt z => exact Except.noConfusion h
  | pyNone => exact Except.noConfusion h
  | pyOther => exact Except.noConfusion h

/-- A passing normalization check means the checked value was a boolean. -/
theorem normalizeCheck_ok (v : PyVal) (h : normalizeCheck v = Except.ok ()) :
    ∃ b : Bool, v = PyVal.pyBool b := by
  cases v with
  | pyBool b => exact ⟨b, rfl⟩
  | pyFloat q => exact Except.noConfusion h
  | pyInt z => exact Except.noConfusion h
  | pyNone => exact Except.noConfusion h
  | pyOther => exact Except.noConfusion h

/-- A constructor run that raises nothing passed every validity condition. -/
theorem initCheck_ok (dH : ℚ) (a : PQInitArgs) (hok : initCheck dH a = Except.ok ()) :
    a.data.isClustered = false ∧ a.data.isDoubleMLData = true ∧ a.data.n_instr = 0
    ∧ (∀ v ∈ a.data.dValues, v = 0 ∨ v = 1) ∧ a.score = "PQ"
    ∧ (0 < a.quantile ∧ a.quantile < 1) ∧ (a.treatment = 0 ∨ a.treatment = 1)
    ∧ (∃ q : ℚ, resolveBandwidthArg dH a.h = PyVal.pyFloat q ∧ 0 < q)
    ∧ (∃ b : Bool, a.normalize = PyVal.pyBool b)
    ∧ a.trimming_rule = "truncate"
    ∧ (0 < a.trimming_threshold ∧ a.trimming_threshold < 1/2) := by
  rw [initCheck] at hok
  split_ifs at hok with hcl hdml hiv hbin hsc hq ht htr hth
  all_goals rcases hbw : bandwidthCheck (resolveBandwidthArg dH a.h) with e | u
  all_goals rw [hbw] at hok
  all_goals rcases hnm : normalizeCheck a.normalize with e2 | u2
  all_goals rw [hnm] at hok
  all_goals try exact Except.noConfusion hok
  exact ⟨by simpa using hcl, hdml, Nat.eq_zero_of_not_pos hiv, hbin, hsc, hq, ht,
    bandwidthCheck_ok _ hbw, normalizeCheck_ok _ hnm, htr, hth⟩

/-- C7: constructing a `DoubleMLPQ` whose configuration violates any of the
spec's validity conditions — quantile outside (0,1), treatment not 0/1,
bandwidth not a positive float, invalid trimming rule or threshold,
non-boolean normalization flag, wrong data-container type, instrumental
variables present, non-binary treatment column, or clustered data — raises
an error during the constructor's validation, never deferring to fit time. -/
theorem claim_C7_init_validation (dH : ℚ) (a : PQInitArgs) (hbad : invalidPQConfig a) :
    ∃ e, initCheck dH a = Except.error e := by
  rcases hres : initCheck dH a with e | u
  · exact ⟨e, rfl⟩
  · exfalso
    cases u
    obtain ⟨hcl, hdml, hiv, hbin, hsc, hq, ht, hbw, hnm, htr, hth⟩ := initCheck_ok dH a hres
    rcases hbad with h | h | h | h | h | h | h | h | h | h
    · exact h hq
    · exact h ht
    · obtain ⟨q, hqf, hqpos⟩ := hbw
      obtain ⟨hne, himp⟩ := h
      have hra : resolveBandwidthArg dH a.h = a.h := by
        cases hv : a.h with
        | pyNone => exact absurd hv hne
        | pyBool b => rfl
        | pyInt z => rfl
        | pyFloat q2 => rfl
        | pyOther => rfl
      rw [hra] at hqf
      exact absurd hqpos (not_lt_of_le (himp q hqf))
    · exact h htr
    · exact h hth
    · obtain ⟨b, hb⟩ := hnm
      exact h b hb
    · rw [hdml] at h
      exact h rfl
    · rw [hiv] at h
      exact absurd h (by simp)
    · exact h hbin
    · rw [hcl] at h
      exact absurd h (by simp)

/-- Witness for C7 at a concrete configuration whose quantile is `2`. -/
theorem claim_C7_witness :
    invalidPQConfig examplePQArgs ∧ ∃ e, initCheck 1 examplePQArgs = Except.error e := by
  have hbad : invalidPQConfig examplePQArgs := by
    rw [invalidPQConfig]
    left
    rw [examplePQArgs]
    norm_num
  exact ⟨hbad, claim_C7_init_validation 1 examplePQArgs hbad⟩
